import Mathlib

/-!
Shallow embedding of the feed-aggregation core of `Happysearch.py`
(`PokemonGoEvents` and its helpers), together with proofs of the spec's
claims about it.  Strings are modelled as Lean `String`s (lists of
Unicode code points, matching Python's `str`); the character-level
helpers work on `List Char`.
-/

namespace Happysearch

set_option maxRecDepth 8000

/-- Python's whitespace class (`\s` for `str` patterns and `str.strip()`):
ASCII whitespace plus the Unicode whitespace code points. -/
def pySpace (c : Char) : Bool :=
  ([9, 10, 11, 12, 13, 28, 29, 30, 31, 32, 133, 160, 5760,
    8192, 8193, 8194, 8195, 8196, 8197, 8198, 8199, 8200, 8201, 8202,
    8232, 8233, 8239, 8287, 12288] : List Nat).contains c.toNat

/-- After the `<` of a candidate tag: skip to the first `>` and return what
follows it, or `none` when no `>` exists.  (The regex class `[^>]+` is
greedy but cannot cross a `>`, so a match always ends at the first `>`.) -/
def skipToGt : List Char → Option (List Char)
  | [] => none
  | c :: rest => if c = '>' then some rest else skipToGt rest

/-- Match `[^>]+>` at the start of the list (the part of a tag after `<`):
requires at least one non-`>` character before the closing `>`. -/
def dropTag : List Char → Option (List Char)
  | [] => none
  | c :: rest => if c = '>' then none else skipToGt rest

theorem skipToGt_length : ∀ {l r : List Char}, skipToGt l = some r → r.length < l.length := by
  intro l
  induction l with
  | nil => intro r h; simp [skipToGt] at h
  | cons c rest ih =>
    intro r h
    simp only [skipToGt] at h
    by_cases hc : c = '>'
    · simp [hc] at h
      subst h
      simp
    · simp [hc] at h
      exact Nat.lt_succ_of_lt (ih h)

theorem dropTag_length : ∀ {l r : List Char}, dropTag l = some r → r.length < l.length := by
  intro l r h
  cases l with
  | nil => simp [dropTag] at h
  | cons c rest =>
    simp only [dropTag] at h
    by_cases hc : c = '>'
    · simp [hc] at h
    · simp [hc] at h
      exact Nat.lt_succ_of_lt (skipToGt_length h)

/-- One scan step of `re.sub(r"<[^>]+>", "", ·)`, with an explicit
recursion-depth fuel.  Every recursive call consumes at least one input
character, so fuel = input length always suffices; the fuel-exhausted case
is unreachable at that fuel. -/
def detagF : Nat → List Char → List Char
  | _, [] => []
  | 0, l => l
  | fuel + 1, c :: rest =>
    if c = '<' then
      match dropTag rest with
      | some rest2 => detagF fuel rest2
      | none => c :: detagF fuel rest
    else c :: detagF fuel rest

/-- Embeds `re.sub(r"<[^>]+>", "", ·)`: left-to-right scan removing every
non-overlapping match of `<[^>]+>`. -/
def detag (l : List Char) : List Char := detagF l.length l

/-- One scan step of `re.sub(r"\s+", " ", ·)`, with fuel as in `detagF`. -/
def collapseF : Nat → List Char → List Char
  | _, [] => []
  | 0, l => l
  | fuel + 1, c :: rest =>
    if pySpace c then ' ' :: collapseF fuel (rest.dropWhile pySpace)
    else c :: collapseF fuel rest

/-- Embeds `re.sub(r"\s+", " ", ·)`: every maximal run of whitespace becomes one
space. -/
def collapseWS (l : List Char) : List Char := collapseF l.length l

theorem detagF_eq : ∀ (fuel : Nat) (l : List Char), l.length ≤ fuel →
    detagF fuel l = detagF l.length l := by
  intro fuel
  induction fuel using Nat.strong_induction_on with
  | _ fuel ih =>
    intro l hl
    cases l with
    | nil => cases fuel <;> rfl
    | cons c rest =>
      rcases fuel with _ | f
      · simp at hl
      · have hrest : rest.length ≤ f := by simpa using hl
        show detagF (f + 1) (c :: rest) = detagF (rest.length + 1) (c :: rest)
        by_cases hc : c = '<'
        · subst hc
          cases hdrop : dropTag rest with
          | some rest2 =>
            have h2 : rest2.length < rest.length := dropTag_length hdrop
            simp only [detagF, if_pos rfl, hdrop]
            rw [ih f (Nat.lt_succ_self f) rest2 (Nat.le_trans (Nat.le_of_lt h2) hrest),
              ih rest.length (Nat.lt_succ_of_le hrest) rest2 (Nat.le_of_lt h2)]
            simp
          | none =>
            simp only [detagF, if_pos rfl, hdrop]
            rw [ih f (Nat.lt_succ_self f) rest hrest]
        · simp only [detagF, hc, if_false]
          rw [ih f (Nat.lt_succ_self f) rest hrest]

theorem detag_nil : detag [] = [] := rfl

theorem detag_cons_some {rest rest2 : List Char} (h : dropTag rest = some rest2) :
    detag ('<' :: rest) = detag rest2 := by
  show detagF (rest.length + 1) ('<' :: rest) = detag rest2
  simp only [detagF, if_pos rfl, h]
  exact detagF_eq rest.length rest2 (Nat.le_of_lt (dropTag_length h))

theorem detag_cons_none {rest : List Char} (h : dropTag rest = none) :
    detag ('<' :: rest) = '<' :: detag rest := by
  show detagF (rest.length + 1) ('<' :: rest) = '<' :: detag rest
  simp only [detagF, if_pos rfl, h, if_true]
  rfl

theorem detag_cons_ne {c : Char} {rest : List Char} (h : ¬c = '<') :
    detag (c :: rest) = c :: detag rest := by
  show detagF (rest.length + 1) (c :: rest) = c :: detag rest
  simp only [detagF, h, if_false]
  rfl

/-- Structural induction along the recursion of `detag`. -/
theorem detag_induction (motive : List Char → Prop)
    (case1 : motive [])
    (case2 : ∀ rest rest2, dropTag rest = some rest2 → motive rest2 →
      motive ('<' :: rest))
    (case3 : ∀ rest, dropTag rest = none → motive rest → motive ('<' :: rest))
    (case4 : ∀ (c : Char) rest, ¬c = '<' → motive rest → motive (c :: rest)) :
    ∀ l, motive l := by
  have key : ∀ (n : Nat) (l : List Char), l.length ≤ n → motive l := by
    intro n
    induction n using Nat.strong_induction_on with
    | _ n ihn =>
      intro l hl
      cases l with
      | nil => exact case1
      | cons c rest =>
        rcases n with _ | m
        · simp at hl
        · have hrest : rest.length ≤ m := by simpa using hl
          have hmot : motive rest :=
            ihn m (Nat.lt_succ_self m) rest hrest
          by_cases hc : c = '<'
          · subst hc
            cases hdrop : dropTag rest with
            | some rest2 =>
              have h2 : rest2.length < rest.length := dropTag_length hdrop
              exact case2 rest rest2 hdrop
                (ihn m (Nat.lt_succ_self m) rest2
                  (Nat.le_trans (Nat.le_of_lt h2) hrest))
            | none => exact case3 rest hdrop hmot
          · exact case4 c rest hc hmot
  exact fun l => key l.length l (Nat.le_refl _)

theorem collapseF_eq : ∀ (fuel : Nat) (l : List Char), l.length ≤ fuel →
    collapseF fuel l = collapseF l.length l := by
  intro fuel
  induction fuel using Nat.strong_induction_on with
  | _ fuel ih =>
    intro l hl
    cases l with
    | nil => cases fuel <;> rfl
    | cons c rest =>
      rcases fuel with _ | f
      · simp at hl
      · have hrest : rest.length ≤ f := by simpa using hl
        have hdwl : (rest.dropWhile pySpace).length ≤ rest.length :=
          (List.dropWhile_suffix pySpace).sublist.length_le
        show collapseF (f + 1) (c :: rest) = collapseF (rest.length + 1) (c :: rest)
        by_cases hc : pySpace c = true
        · simp only [collapseF, hc, if_pos]
          rw [ih f (Nat.lt_succ_self f) (rest.dropWhile pySpace)
              (Nat.le_trans hdwl hrest),
            ih rest.length (Nat.lt_succ_of_le hrest) (rest.dropWhile pySpace) hdwl]
        · simp only [collapseF, hc, if_false]
          rw [ih f (Nat.lt_succ_self f) rest hrest]
          simp

/-- Structural induction along the recursion of `collapseWS`. -/
theorem collapseWS_induction (motive : List Char → Prop)
    (case1 : motive [])
    (case2 : ∀ (c : Char) rest, pySpace c = true →
      motive (rest.dropWhile pySpace) → motive (c :: rest))
    (case3 : ∀ (c : Char) rest, ¬pySpace c = true → motive rest →
      motive (c :: rest)) :
    ∀ l, motive l := by
  have key : ∀ (n : Nat) (l : List Char), l.length ≤ n → motive l := by
    intro n
    induction n using Nat.strong_induction_on with
    | _ n ihn =>
      intro l hl
      cases l with
      | nil => exact case1
      | cons c rest =>
        rcases n with _ | m
        · simp at hl
        · have hrest : rest.length ≤ m := by simpa using hl
          by_cases hc : pySpace c = true
          · have hdwl : (rest.dropWhile pySpace).length ≤ rest.length :=
              (List.dropWhile_suffix pySpace).sublist.length_le
            exact case2 c rest hc
              (ihn m (Nat.lt_succ_self m) _ (Nat.le_trans hdwl hrest))
          · exact case3 c rest hc (ihn m (Nat.lt_succ_self m) rest hrest)
  exact fun l => key l.length l (Nat.le_refl _)

theorem skipToGt_none_iff : ∀ {l : List Char}, skipToGt l = none ↔ '>' ∉ l := by
  intro l
  induction l with
  | nil => simp [skipToGt]
  | cons c rest ih =>
    by_cases hc : c = '>'
    · subst hc; simp [skipToGt]
    · have hc2 : ¬('>' = c) := fun h => hc h.symm
      simp [skipToGt, hc, hc2, ih]

theorem skipToGt_mem : ∀ {l r : List Char}, skipToGt l = some r → ∀ {x}, x ∈ r → x ∈ l := by
  intro l
  induction l with
  | nil => intro r h; simp [skipToGt] at h
  | cons c rest ih =>
    intro r h x hx
    simp only [skipToGt] at h
    by_cases hc : c = '>'
    · simp [hc] at h; subst h; exact List.mem_cons_of_mem _ hx
    · simp [hc] at h; exact List.mem_cons_of_mem _ (ih h hx)

theorem dropTag_mem {l r : List Char} (h : dropTag l = some r) {x : Char}
    (hx : x ∈ r) : x ∈ l := by
  cases l with
  | nil => simp [dropTag] at h
  | cons c rest =>
    simp only [dropTag] at h
    by_cases hc : c = '>'
    · simp [hc] at h
    · simp [hc] at h
      exact List.mem_cons_of_mem _ (skipToGt_mem h hx)

/-- If a list contains no `>`, the tag pattern cannot match at its head. -/
theorem dropTag_eq_none_of_not_mem {l : List Char} (h : '>' ∉ l) : dropTag l = none := by
  cases l with
  | nil => rfl
  | cons c rest =>
    simp only [dropTag]
    have hc : ¬c = '>' := fun hc => h (hc ▸ List.mem_cons_self c rest)
    simp only [hc, if_false]
    exact skipToGt_none_iff.mpr fun hm => h (List.mem_cons_of_mem _ hm)

theorem mem_detag : ∀ {l : List Char} {x : Char}, x ∈ detag l → x ∈ l := by
  intro l
  induction l using detag_induction with
  | case1 => intro x hx; rw [detag_nil] at hx; cases hx
  | case2 rest rest2 hdrop ih =>
    intro x hx
    rw [detag_cons_some hdrop] at hx
    exact List.mem_cons_of_mem _ (dropTag_mem hdrop (ih hx))
  | case3 rest hdrop ih =>
    intro x hx
    rw [detag_cons_none hdrop] at hx
    rcases List.mem_cons.mp hx with hx | hx
    · exact hx ▸ List.mem_cons_self _ _
    · exact List.mem_cons_of_mem _ (ih hx)
  | case4 c rest hc ih =>
    intro x hx
    rw [detag_cons_ne hc] at hx
    rcases List.mem_cons.mp hx with hx | hx
    · exact hx ▸ List.mem_cons_self _ _
    · exact List.mem_cons_of_mem _ (ih hx)

/-- No occurrence of the tag pattern `<[^>]+>` anywhere in the list. -/
def noMatch : List Char → Bool
  | [] => true
  | c :: rest => (if c = '<' then (dropTag rest).isNone else true) && noMatch rest

theorem noMatch_tail {c : Char} {rest : List Char} (h : noMatch (c :: rest) = true) :
    noMatch rest = true := by
  simp only [noMatch, Bool.and_eq_true] at h
  exact h.2

/-- A complete-tag-free list is left unchanged by `detag`. -/
theorem detag_of_noMatch : ∀ {l : List Char}, noMatch l = true → detag l = l := by
  intro l
  induction l with
  | nil => intro _; exact detag_nil
  | cons c rest ih =>
    intro h
    have hrest := noMatch_tail h
    by_cases hc : c = '<'
    · subst hc
      simp only [noMatch, Bool.and_eq_true, Option.isNone_iff_eq_none, if_pos] at h
      rw [detag_cons_none h.1, ih hrest]
    · rw [detag_cons_ne hc, ih hrest]

/-- If the tag pattern cannot match at the head, it still cannot match there
after `detag` rewrites the tail. -/
theorem dropTag_detag_none {l : List Char} (h : dropTag l = none) :
    dropTag (detag l) = none := by
  cases l with
  | nil => rw [detag_nil]; rfl
  | cons c rest =>
    simp only [dropTag] at h
    by_cases hc : c = '>'
    · subst hc
      rw [detag_cons_ne (by decide)]
      rfl
    · simp only [hc, if_false] at h
      have hngt : '>' ∉ (c :: rest) := by
        intro hm
        rcases List.mem_cons.mp hm with hm | hm
        · exact hc hm.symm
        · exact (skipToGt_none_iff.mp h) hm
      exact dropTag_eq_none_of_not_mem fun hm => hngt (mem_detag hm)

/-- The output of `detag` contains no complete tag. -/
theorem noMatch_detag : ∀ {l : List Char}, noMatch (detag l) = true := by
  intro l
  induction l using detag_induction with
  | case1 => rw [detag_nil]; rfl
  | case2 rest rest2 hdrop ih =>
    rw [detag_cons_some hdrop]; exact ih
  | case3 rest hdrop ih =>
    rw [detag_cons_none hdrop]
    simp only [noMatch, Bool.and_eq_true, Option.isNone_iff_eq_none, if_pos]
    exact ⟨dropTag_detag_none hdrop, ih⟩
  | case4 c rest hc ih =>
    rw [detag_cons_ne hc]
    simp only [noMatch, hc, if_false, Bool.and_eq_true, true_and]
    exact ih

/-- Applying `detag` twice equals applying it once. -/
theorem detag_detag (l : List Char) : detag (detag l) = detag l :=
  detag_of_noMatch noMatch_detag

theorem collapseWS_nil : collapseWS [] = [] := rfl

theorem collapseWS_cons_space {c : Char} {rest : List Char} (h : pySpace c = true) :
    collapseWS (c :: rest) = ' ' :: collapseWS (rest.dropWhile pySpace) := by
  show collapseF (rest.length + 1) (c :: rest) = _
  simp only [collapseF, h, if_pos]
  rw [collapseF_eq rest.length (rest.dropWhile pySpace)
    (List.dropWhile_suffix pySpace).sublist.length_le]
  rfl

theorem collapseWS_cons_other {c : Char} {rest : List Char} (h : pySpace c = false) :
    collapseWS (c :: rest) = c :: collapseWS rest := by
  show collapseF (rest.length + 1) (c :: rest) = c :: collapseWS rest
  simp only [collapseF, h, if_false, Bool.false_eq_true]
  rfl

theorem mem_collapseWS : ∀ {l : List Char} {x : Char},
    x ∈ collapseWS l → x ∈ l ∨ x = ' ' := by
  intro l
  induction l using collapseWS_induction with
  | case1 => intro x hx; rw [collapseWS_nil] at hx; cases hx
  | case2 c rest h ih =>
    intro x hx
    rw [collapseWS_cons_space h] at hx
    rcases List.mem_cons.mp hx with hx | hx
    · exact Or.inr hx
    · rcases ih hx with hx | hx
      · exact Or.inl (List.mem_cons_of_mem _ (List.dropWhile_subset _ hx))
      · exact Or.inr hx
  | case3 c rest h ih =>
    intro x hx
    rw [collapseWS_cons_other (by simpa using h)] at hx
    rcases List.mem_cons.mp hx with hx | hx
    · exact Or.inl (hx ▸ List.mem_cons_self _ _)
    · rcases ih hx with hx | hx
      · exact Or.inl (List.mem_cons_of_mem _ hx)
      · exact Or.inr hx

theorem noMatch_dropWhile {q : Char → Bool} :
    ∀ {l : List Char}, noMatch l = true → noMatch (l.dropWhile q) = true := by
  intro l
  induction l with
  | nil => intro h; exact h
  | cons c rest ih =>
    intro h
    rw [List.dropWhile_cons]
    by_cases hq : q c = true
    · simp only [hq, if_true]
      exact ih (noMatch_tail h)
    · simp only [hq, if_false]
      exact h

theorem dropTag_collapseWS_none {l : List Char} (h : dropTag l = none) :
    dropTag (collapseWS l) = none := by
  cases l with
  | nil => rw [collapseWS_nil]; rfl
  | cons c rest =>
    simp only [dropTag] at h
    by_cases hc : c = '>'
    · subst hc
      rw [collapseWS_cons_other (by decide)]
      rfl
    · simp only [hc, if_false] at h
      have hngt : '>' ∉ (c :: rest) := by
        intro hm
        rcases List.mem_cons.mp hm with hm | hm
        · exact hc hm.symm
        · exact (skipToGt_none_iff.mp h) hm
      refine dropTag_eq_none_of_not_mem fun hm => ?_
      rcases mem_collapseWS hm with hm | hm
      · exact hngt hm
      · cases hm

/-- Collapsing whitespace preserves tag-freeness. -/
theorem noMatch_collapseWS : ∀ {l : List Char},
    noMatch l = true → noMatch (collapseWS l) = true := by
  intro l
  induction l using collapseWS_induction with
  | case1 => intro h; rw [collapseWS_nil]; exact h
  | case2 c rest h ih =>
    intro hm
    rw [collapseWS_cons_space h]
    simp only [noMatch, (by decide : ¬(' ' = '<')), if_false, Bool.true_and]
    exact ih (noMatch_dropWhile (noMatch_tail hm))
  | case3 c rest h ih =>
    intro hm
    have h' : pySpace c = false := by simpa using h
    rw [collapseWS_cons_other h']
    simp only [noMatch, Bool.and_eq_true]
    refine ⟨?_, ih (noMatch_tail hm)⟩
    by_cases hc : c = '<'
    · subst hc
      have hdrop : dropTag rest = none := by
        have h2 := hm
        simp only [noMatch, Bool.and_eq_true] at h2
        simpa using h2.1
      simpa using dropTag_collapseWS_none hdrop
    · simp only [hc, if_false]

/-- Every whitespace character is a plain space. -/
def wsNorm (l : List Char) : Bool :=
  l.all fun c => !(pySpace c) || (c == ' ')

/-- No two adjacent whitespace characters. -/
def noAdjWS : List Char → Bool
  | [] => true
  | [_] => true
  | c :: d :: rest => (!(pySpace c && pySpace d)) && noAdjWS (d :: rest)

/-- Python `str.strip()`: drop whitespace from both ends. -/
def stripWS (l : List Char) : List Char :=
  (l.dropWhile pySpace).rdropWhile pySpace

theorem noAdjWS_tail : ∀ {c : Char} {rest : List Char},
    noAdjWS (c :: rest) = true → noAdjWS rest = true := by
  intro c rest h
  cases rest with
  | nil => rfl
  | cons d r =>
    simp only [noAdjWS, Bool.and_eq_true] at h
    exact h.2

theorem noAdjWS_cons_of_not_space {c : Char} {rest : List Char}
    (hc : pySpace c = false) (h : noAdjWS rest = true) : noAdjWS (c :: rest) = true := by
  cases rest with
  | nil => rfl
  | cons d r =>
    simp only [noAdjWS, Bool.and_eq_true]
    exact ⟨by simp [hc], h⟩

theorem wsNorm_collapseWS : ∀ {l : List Char}, wsNorm (collapseWS l) = true := by
  intro l
  induction l using collapseWS_induction with
  | case1 => rw [collapseWS_nil]; rfl
  | case2 c rest h ih =>
    rw [collapseWS_cons_space h]
    simp only [wsNorm, List.all_cons, Bool.and_eq_true]
    exact ⟨by decide, ih⟩
  | case3 c rest h ih =>
    have h' : pySpace c = false := by simpa using h
    rw [collapseWS_cons_other h']
    simp only [wsNorm, List.all_cons, Bool.and_eq_true]
    exact ⟨by simp [h'], ih⟩

theorem dropWhile_head_false {q : Char → Bool} :
    ∀ {l : List Char} {e : Char} {m : List Char},
      l.dropWhile q = e :: m → q e = false := by
  intro l
  induction l with
  | nil => intro e m h; cases h
  | cons c rest ih =>
    intro e m h
    rw [List.dropWhile_cons] at h
    by_cases hq : q c = true
    · simp only [hq, if_true] at h
      exact ih h
    · simp only [hq, if_false] at h
      cases h
      simpa using hq

/-- The head of `collapseWS (l.dropWhile pySpace)` is never whitespace. -/
theorem collapseWS_dropWhile_head (l : List Char) :
    collapseWS (l.dropWhile pySpace) = [] ∨
      ∃ d r, collapseWS (l.dropWhile pySpace) = d :: r ∧ pySpace d = false := by
  rcases hm : l.dropWhile pySpace with _ | ⟨e, m⟩
  · left; exact collapseWS_nil
  · right
    exact ⟨e, collapseWS m, collapseWS_cons_other (dropWhile_head_false hm),
      dropWhile_head_false hm⟩

theorem noAdjWS_collapseWS : ∀ {l : List Char}, noAdjWS (collapseWS l) = true := by
  intro l
  induction l using collapseWS_induction with
  | case1 => rw [collapseWS_nil]; rfl
  | case2 c rest h ih =>
    rw [collapseWS_cons_space h]
    rcases collapseWS_dropWhile_head rest with hnil | ⟨d, r, hdr, hd⟩
    · rw [hnil]; rfl
    · rw [hdr]
      rw [hdr] at ih
      simp only [noAdjWS, Bool.and_eq_true]
      exact ⟨by simp [hd], ih⟩
  | case3 c rest h ih =>
    have h' : pySpace c = false := by simpa using h
    rw [collapseWS_cons_other h']
    exact noAdjWS_cons_of_not_space h' ih

/-- A list whose whitespace is already collapsed is a fixed point of
`collapseWS`. -/
theorem collapseWS_of_norm : ∀ {l : List Char},
    wsNorm l = true → noAdjWS l = true → collapseWS l = l := by
  intro l
  induction l with
  | nil => intro _ _; exact collapseWS_nil
  | cons c rest ih =>
    intro hw ha
    have hwrest : wsNorm rest = true := by
      simp only [wsNorm, List.all_cons, Bool.and_eq_true] at hw
      exact hw.2
    by_cases hc : pySpace c = true
    · have hcsp : c = ' ' := by
        simp only [wsNorm, List.all_cons, Bool.and_eq_true] at hw
        have := hw.1
        rw [hc] at this
        simpa using this
      rw [collapseWS_cons_space hc]
      have hdw : rest.dropWhile pySpace = rest := by
        cases rest with
        | nil => rfl
        | cons d r =>
          simp only [noAdjWS, Bool.and_eq_true] at ha
          have hd : pySpace d = false := by
            have := ha.1
            rw [hc] at this
            simpa using this
          simp [List.dropWhile_cons, hd]
      rw [hdw, ih hwrest (noAdjWS_tail ha), hcsp]
    · have hc' : pySpace c = false := by simpa using hc
      rw [collapseWS_cons_other hc']
      rw [ih hwrest (noAdjWS_tail ha)]

theorem wsNorm_of_subset {l m : List Char} (hsub : m ⊆ l) (h : wsNorm l = true) :
    wsNorm m = true := by
  simp only [wsNorm, List.all_eq_true] at h ⊢
  exact fun c hc => h c (hsub hc)

theorem noAdjWS_dropWhile {q : Char → Bool} :
    ∀ {l : List Char}, noAdjWS l = true → noAdjWS (l.dropWhile q) = true := by
  intro l
  induction l with
  | nil => intro h; exact h
  | cons c rest ih =>
    intro h
    rw [List.dropWhile_cons]
    by_cases hq : q c = true
    · simp only [hq, if_true]
      exact ih (noAdjWS_tail h)
    · simp only [hq, if_false]
      exact h

theorem noAdjWS_take : ∀ {l : List Char} (n : Nat),
    noAdjWS l = true → noAdjWS (l.take n) = true := by
  intro l
  induction l with
  | nil => intro n _; simp [noAdjWS]
  | cons c rest ih =>
    intro n h
    cases n with
    | zero => rfl
    | succ n =>
      rw [List.take_succ_cons]
      cases rest with
      | nil => simp [noAdjWS]
      | cons d r =>
        cases n with
        | zero => rfl
        | succ n =>
          rw [List.take_succ_cons]
          simp only [noAdjWS, Bool.and_eq_true] at h ⊢
          constructor
          · exact h.1
          · have := ih (n + 1) h.2
            rwa [List.take_succ_cons] at this

theorem noMatch_head_dropTag {c : Char} {rest : List Char}
    (h : noMatch (c :: rest) = true) (hc : c = '<') : dropTag rest = none := by
  subst hc
  simp only [noMatch, Bool.and_eq_true] at h
  simpa using h.1

theorem dropTag_take_none {l : List Char} (n : Nat) (h : dropTag l = none) :
    dropTag (l.take n) = none := by
  cases l with
  | nil => simp [dropTag]
  | cons d r =>
    cases n with
    | zero => rfl
    | succ n =>
      rw [List.take_succ_cons]
      simp only [dropTag] at h ⊢
      by_cases hd : d = '>'
      · simp [hd]
      · simp only [hd, if_false] at h ⊢
        have hngt : '>' ∉ r := skipToGt_none_iff.mp h
        exact skipToGt_none_iff.mpr fun hm => hngt (List.take_subset n r hm)

theorem noMatch_take : ∀ {l : List Char} (n : Nat),
    noMatch l = true → noMatch (l.take n) = true := by
  intro l
  induction l with
  | nil => intro n _; simp [noMatch]
  | cons c rest ih =>
    intro n h
    cases n with
    | zero => rfl
    | succ n =>
      rw [List.take_succ_cons]
      simp only [noMatch, Bool.and_eq_true]
      refine ⟨?_, ih n (noMatch_tail h)⟩
      by_cases hc : c = '<'
      · subst hc
        have hd : dropTag rest = none := noMatch_head_dropTag h rfl
        simp [dropTag_take_none n hd]
      · simp [hc]

theorem noMatch_stripWS {l : List Char} (h : noMatch l = true) :
    noMatch (stripWS l) = true := by
  have h1 : noMatch (l.dropWhile pySpace) = true := noMatch_dropWhile h
  have hpre := List.rdropWhile_prefix pySpace (l.dropWhile pySpace)
  rw [stripWS, List.prefix_iff_eq_take.mp hpre]
  exact noMatch_take _ h1

theorem wsNorm_stripWS {l : List Char} (h : wsNorm l = true) :
    wsNorm (stripWS l) = true := by
  refine wsNorm_of_subset ?_ h
  intro x hx
  have h1 := ( List.rdropWhile_prefix pySpace (l.dropWhile pySpace)).subset hx
  exact (List.dropWhile_suffix pySpace).subset h1

theorem noAdjWS_stripWS {l : List Char} (h : noAdjWS l = true) :
    noAdjWS (stripWS l) = true := by
  have h1 : noAdjWS (l.dropWhile pySpace) = true := noAdjWS_dropWhile h
  have hpre := List.rdropWhile_prefix pySpace (l.dropWhile pySpace)
  rw [stripWS, List.prefix_iff_eq_take.mp hpre]
  exact noAdjWS_take _ h1

/-- Stripping is idempotent. -/
theorem stripWS_stripWS (l : List Char) : stripWS (stripWS l) = stripWS l := by
  have hdw : (stripWS l).dropWhile pySpace = stripWS l := by
    cases hs : stripWS l with
    | nil => rfl
    | cons c r =>
      have hpre : stripWS l <+: l.dropWhile pySpace := by
        rw [stripWS]
        exact List.rdropWhile_prefix _ _
      rw [hs] at hpre
      rcases hpre with ⟨t, ht⟩
      have ht2 : l.dropWhile pySpace = c :: (r ++ t) := by
        rw [← ht]
        simp
      have hc : pySpace c = false := dropWhile_head_false ht2
      simp [List.dropWhile_cons, hc]
  show ((stripWS l).dropWhile pySpace).rdropWhile pySpace = stripWS l
  rw [hdw]
  show ((l.dropWhile pySpace).rdropWhile pySpace).rdropWhile pySpace = stripWS l
  rw [List.rdropWhile_idempotent]
  rfl

/-- Embeds `PokemonGoEvents._clean_html` on the character list:
strip tags, collapse whitespace, trim. -/
def cleanChars (l : List Char) : List Char :=
  stripWS (collapseWS (detag l))

/-- Embeds `PokemonGoEvents._clean_html`:
`re.sub(r"\s+", " ", re.sub(r"<[^>]+>", "", text or "")).strip()`. -/
def clean_html (s : String) : String :=
  ⟨cleanChars s.data⟩

/-- Embeds `str.lower()` restricted to the ASCII range (the keyword table and the
titles the claims evaluate are ASCII). -/
def pyLower (s : String) : String := ⟨s.data.map Char.toLower⟩

/-- Python `needle in hay` on strings: contiguous substring test
(the needle is a prefix of some suffix of the haystack). -/
def pyIn (needle hay : String) : Bool :=
  hay.data.tails.any fun t => needle.data.isPrefixOf t

/-- Python `s or default` for a string `s`: `default` when `s` is empty
(falsy). -/
def pyOrS (s d : String) : String := if s = "" then d else s

/-- Python `opt or default` where `opt` is a `findtext` result
(`None` or a string). -/
def pyOr (o : Option String) (d : String) : String :=
  match o with
  | none => d
  | some s => pyOrS s d

/-- Python `str.strip()`. -/
def pyStrip (s : String) : String := ⟨stripWS s.data⟩

/-- The `EventPost` dataclass. -/
structure EventPost where
  title : String
  url : String
  summary : String
  source : String
  published_at : String
  category : String
deriving DecidableEq, Repr

/-- Embeds `PokemonGoEvents.FEEDS`: the source registry, in order. -/
def FEEDS : List (String × String) :=
  [("Pokemon GO Live", "https://pokemongolive.com/news/rss"),
   ("Pokemon GO Live (EN)", "https://pokemongolive.com/en/news/rss"),
   ("Pokemon GO Blog", "https://pokemongohub.net/feed/")]

/-- Embeds `PokemonGoEvents.EVENT_KEYWORDS` (a `dict` literal; Python preserves
insertion order, so it is an ordered association list). -/
def EVENT_KEYWORDS : List (String × String) :=
  [("Raid", "Raid"), ("Spotlight", "Spotlight Hour"),
   ("Community Day", "Community Day"), ("Max Monday", "Max Monday"),
   ("Research", "Research"), ("GO Battle", "GO Battle League"),
   ("Season", "Season"), ("Showcase", "Showcase"),
   ("Incense", "Incense"), ("Egg", "Egg")]

/-- The `for keyword, category in EVENT_KEYWORDS` loop of
`_category_for_title`. -/
def categoryLoop (title : String) : List (String × String) → String
  | [] => "News"
  | (keyword, category) :: rest =>
    if pyIn (pyLower keyword) (pyLower title) then category
    else categoryLoop title rest

/-- Embeds `PokemonGoEvents._category_for_title`. -/
def category_for_title (title : String) : String :=
  categoryLoop title EVENT_KEYWORDS

/-- The result of `email.utils.parsedate_to_datetime`: a Python `datetime`
with an optional fixed UTC offset in minutes (`tz = none` models a naive
datetime, i.e. `tzinfo is None`). -/
structure PyDateTime where
  year : Int
  month : Int
  day : Int
  hour : Int
  minute : Int
  second : Int
  tz : Option Int
deriving DecidableEq, Repr

/-- Days since 1970-01-01 of a proleptic-Gregorian civil date. -/
def daysFromCivil (y m d : Int) : Int :=
  let y2 := if m ≤ 2 then y - 1 else y
  let era := y2.fdiv 400
  let yoe := y2 - era * 400
  let mp := if m > 2 then m - 3 else m + 9
  let doy := (153 * mp + 2).fdiv 5 + d - 1
  let doe := yoe * 365 + yoe.fdiv 4 - yoe.fdiv 100 + doy
  era * 146097 + doe - 719468

/-- Civil date from days since 1970-01-01. -/
def civilFromDays (z0 : Int) : Int × Int × Int :=
  let z := z0 + 719468
  let era := z.fdiv 146097
  let doe := z - era * 146097
  let yoe := (doe - doe.fdiv 1460 + doe.fdiv 36524 - doe.fdiv 146096).fdiv 365
  let y := yoe + era * 400
  let doy := doe - (365 * yoe + yoe.fdiv 4 - yoe.fdiv 100)
  let mp := (5 * doy + 2).fdiv 153
  let d := doy - (153 * mp + 2).fdiv 5 + 1
  let m := if mp < 10 then mp + 3 else mp - 9
  (if m ≤ 2 then y + 1 else y, m, d)

/-- Embeds `dt.astimezone(timezone.utc)` after the `if dt.tzinfo is None:
dt = dt.replace(tzinfo=timezone.utc)` defaulting in `_normalize_date`.
A naive datetime is stamped UTC with its fields untouched; an aware
datetime already at offset zero is returned unchanged (CPython's
`astimezone` returns `self` for the same zone); any other offset is
renormalized to the same instant at offset zero. -/
def toUTC (dt : PyDateTime) : PyDateTime :=
  match dt.tz with
  | none => { dt with tz := some 0 }
  | some o =>
    if o = 0 then dt
    else
      let total := daysFromCivil dt.year dt.month dt.day * 1440 +
        dt.hour * 60 + dt.minute - o
      let days := total.fdiv 1440
      let rem := total - days * 1440
      let ymd := civilFromDays days
      { year := ymd.1, month := ymd.2.1, day := ymd.2.2,
        hour := rem.fdiv 60, minute := rem - rem.fdiv 60 * 60,
        second := dt.second, tz := some 0 }

/-- Zero-padded decimal of width 2 (`strftime` `%m`, `%d`, `%H`, `%M`). -/
def pad2 (n : Int) : String :=
  if n < 10 then "0" ++ toString n else toString n

/-- Zero-padded decimal of width 4 (`strftime` `%Y`). -/
def pad4 (n : Int) : String :=
  if n < 10 then "000" ++ toString n
  else if n < 100 then "00" ++ toString n
  else if n < 1000 then "0" ++ toString n
  else toString n

/-- Embeds `dt.strftime("%Y-%m-%d %H:%M UTC")`. -/
def fmtUTC (dt : PyDateTime) : String :=
  pad4 dt.year ++ "-" ++ pad2 dt.month ++ "-" ++ pad2 dt.day ++ " " ++
    pad2 dt.hour ++ ":" ++ pad2 dt.minute ++ " UTC"

/-- Embeds `PokemonGoEvents._normalize_date`, parameterized by the external
RFC 2822 parser (`email.utils.parsedate_to_datetime`); `parse v = none`
models every way the `try` block can raise. -/
def normalize_date (parse : String → Option PyDateTime) (value : String) :
    String :=
  if value = "" then "Unknown"
  else
    match parse value with
    | none => value
    | some dt => fmtUTC (toUTC dt)

/-- One `item` element of a fetched feed: the `findtext` results for the
four sub-elements (`none` when the sub-element is missing; an element that
is present but textless yields `some ""`). -/
structure RssItem where
  title : Option String
  link : Option String
  description : Option String
  pubDate : Option String
deriving DecidableEq, Repr

/-- Embeds line `summary = summary[:230] + "…" if len(summary) > 230 else summary`. -/
def truncateSummary (s : String) : String :=
  if s.length > 230 then ⟨s.data.take 230 ++ ['…']⟩ else s

/-- The loop body of `_read_feed`: build one `EventPost` from one item. -/
def mkPost (parse : String → Option PyDateTime) (source_name : String)
    (item : RssItem) : EventPost :=
  let title := pyStrip (pyOr item.title "Untitled Event")
  let link := pyStrip (pyOr item.link "")
  let summary := truncateSummary (clean_html (pyOr item.description ""))
  let published := pyStrip (pyOr item.pubDate "")
  { title := title
    url := link
    summary := pyOrS summary "Open to see full event details."
    source := source_name
    published_at := normalize_date parse published
    category := category_for_title title }

/-- Embeds `PokemonGoEvents._read_feed` after fetching and XML parsing succeed:
`for item in root.findall(".//item")[:25]`. -/
def read_feed (parse : String → Option PyDateTime) (source_name : String)
    (items : List RssItem) : List EventPost :=
  (items.take 25).map (mkPost parse source_name)

/-- The single synthetic post built by `fallback_posts` (`today` is the
current UTC date string, an input of the model). -/
def fallbackPost (today : String) : EventPost :=
  { title := "Daily feed refresh pending"
    url := "https://pokemongolive.com/"
    summary := "Could not reach live Pokemon GO feeds right now. The tracker will retry automatically on every page load so fresh event posts appear as soon as sources are reachable."
    source := "System"
    published_at := today ++ " 00:00 UTC"
    category := "Status" }

/-- Embeds `PokemonGoEvents.fallback_posts`. -/
def fallback_posts (today : String) : List EventPost := [fallbackPost today]

/-- The fetch loop of `events()`: per-source posts and error strings, in
registry order.  `fetch` abstracts `urlopen` + `ElementTree.fromstring` +
`findall(".//item")`; `Except.error e` is any exception caught at the
per-source boundary (`str(error)` is the payload). -/
def gather (parse : String → Option PyDateTime)
    (fetch : String → Except String (List RssItem)) :
    List (String × String) → List EventPost × List String
  | [] => ([], [])
  | (source, feed_url) :: rest =>
    let r := gather parse fetch rest
    match fetch feed_url with
    | Except.ok items => (read_feed parse source items ++ r.1, r.2)
    | Except.error e => (r.1, (source ++ ": " ++ e) :: r.2)

/-- The dedup key `f"{post.title}|{post.url}"`. -/
def dedupKey (p : EventPost) : String := p.title ++ "|" ++ p.url

/-- One step of filling the `unique` dict: Python dicts keep the first
insertion position of a key and overwrite its value in place. -/
def dedupInsert (acc : List (String × EventPost)) (p : EventPost) :
    List (String × EventPost) :=
  if acc.any (fun kv => kv.1 = dedupKey p) then
    acc.map (fun kv => if kv.1 = dedupKey p then (kv.1, p) else kv)
  else acc ++ [(dedupKey p, p)]

/-- Embeds the dict-filling loop `for post in collected: unique[key] = post` followed by
`unique.values()`. -/
def dedup (l : List EventPost) : List EventPost :=
  (l.foldl dedupInsert []).map (fun kv => kv.2)

/-- Lexicographic code-point comparison: Python `str <`. -/
def lexLt : List Char → List Char → Bool
  | [], [] => false
  | [], _ :: _ => true
  | _ :: _, [] => false
  | a :: as, b :: bs =>
    if a.toNat < b.toNat then true
    else if b.toNat < a.toNat then false
    else lexLt as bs

/-- Embeds `sorted(values, key=published_at, reverse=True)` as a stable descending
sort: a new element goes after every element whose key is not below its
own. -/
def insertDesc (x : EventPost) : List EventPost → List EventPost
  | [] => [x]
  | y :: ys =>
    if lexLt y.published_at.data x.published_at.data then x :: y :: ys
    else y :: insertDesc x ys

def sortDesc (l : List EventPost) : List EventPost :=
  l.foldl (fun acc x => insertDesc x acc) []

/-- The JSON envelope returned by `events()`. -/
structure Envelope where
  generated_at : String
  refresh_note : String
  elapsed_ms : Nat
  errors : List String
  events : List EventPost
deriving DecidableEq, Repr

/-- The `collected` list of `events()` after the empty-fallback step. -/
def collected_posts (parse : String → Option PyDateTime) (today : String)
    (fetch : String → Except String (List RssItem)) : List EventPost :=
  let g := gather parse fetch FEEDS
  if g.1 = [] then fallback_posts today else g.1

/-- Embeds `PokemonGoEvents.events()`.  The wall-clock readings are inputs of the
model: `now` is `datetime.now(tz=utc)` formatted, `today` the current UTC
date, `elapsed` the measured millisecond count. -/
def events (parse : String → Option PyDateTime) (now today : String)
    (elapsed : Nat) (fetch : String → Except String (List RssItem)) :
    Envelope :=
  { generated_at := now
    refresh_note := "Auto-refreshes every day and can be manually refreshed anytime."
    elapsed_ms := elapsed
    errors := (gather parse fetch FEEDS).2
    events := sortDesc (dedup (collected_posts parse today fetch)) }

theorem lexLt_asymm : ∀ {a b : List Char}, lexLt a b = true → lexLt b a = false := by
  intro a
  induction a with
  | nil =>
    intro b h
    cases b with
    | nil => simp [lexLt] at h
    | cons d ds => simp [lexLt]
  | cons c cs ih =>
    intro b h
    cases b with
    | nil => simp [lexLt] at h
    | cons d ds =>
      simp only [lexLt] at h ⊢
      by_cases h1 : c.toNat < d.toNat
      · have h2 : ¬d.toNat < c.toNat := Nat.lt_asymm h1
        simp [h1, h2]
      · simp only [h1, if_false] at h
        by_cases h2 : d.toNat < c.toNat
        · simp [h2] at h
        · simp only [h2, if_false] at h
          simp [h1, h2, ih h]

/-- The descending-by-`published_at` relation between adjacent output posts. -/
def descPair (a b : EventPost) : Prop :=
  lexLt a.published_at.data b.published_at.data = false

theorem head_insertDesc (x : EventPost) (l : List EventPost) :
    (insertDesc x l).head? = some x ∨ (insertDesc x l).head? = l.head? := by
  cases l with
  | nil => left; rfl
  | cons y ys =>
    rw [insertDesc]
    by_cases h : lexLt y.published_at.data x.published_at.data = true
    · left; simp [h]
    · right; simp [h]

theorem chain_insertDesc {x : EventPost} : ∀ {l : List EventPost},
    List.Chain' descPair l → List.Chain' descPair (insertDesc x l) := by
  intro l
  induction l with
  | nil => intro _; simp [insertDesc]
  | cons y ys ih =>
    intro h
    rcases List.chain'_cons'.mp h with ⟨hhead, htail⟩
    rw [insertDesc]
    by_cases hlt : lexLt y.published_at.data x.published_at.data = true
    · simp only [hlt, if_true]
      exact List.Chain'.cons (lexLt_asymm hlt) h
    · have hlt' : lexLt y.published_at.data x.published_at.data = false := by
        simpa using hlt
      simp only [hlt, if_false]
      refine List.chain'_cons'.mpr ⟨?_, ih htail⟩
      intro z hz
      rcases head_insertDesc x ys with hh | hh
      · rw [hh] at hz
        cases hz
        exact hlt'
      · rw [hh] at hz
        exact hhead z hz

theorem chain_sortDesc (l : List EventPost) : List.Chain' descPair (sortDesc l) := by
  suffices h : ∀ acc, List.Chain' descPair acc →
      List.Chain' descPair (List.foldl (fun acc x => insertDesc x acc) acc l) by
    exact h [] (by simp)
  induction l with
  | nil => intro acc h; exact h
  | cons x xs ih =>
    intro acc h
    exact ih _ (chain_insertDesc h)

theorem insertDesc_perm (x : EventPost) : ∀ (l : List EventPost),
    List.Perm (insertDesc x l) (x :: l) := by
  intro l
  induction l with
  | nil => rfl
  | cons y ys ih =>
    rw [insertDesc]
    by_cases h : lexLt y.published_at.data x.published_at.data = true
    · simp [h]
    · simp only [h, if_false]
      exact (ih.cons y).trans (List.Perm.swap x y ys)

theorem sortDesc_perm (l : List EventPost) : List.Perm (sortDesc l) l := by
  suffices h : ∀ acc, List.Perm
      (List.foldl (fun acc x => insertDesc x acc) acc l) (acc ++ l) by
    simpa using h []
  induction l with
  | nil => intro acc; simp
  | cons x xs ih =>
    intro acc
    rw [List.foldl_cons]
    refine ((ih _).trans ?_)
    refine ((insertDesc_perm x acc).append_right xs).trans ?_
    exact List.perm_middle.symm

theorem snd_filter_nil {k : String} : ∀ {rest : List (String × EventPost)},
    (∀ kv ∈ rest, kv.1 = dedupKey kv.2) → (∀ kv ∈ rest, kv.1 ≠ k) →
    ((rest.map fun kv => kv.2).filter fun q => dedupKey q = k) = [] := by
  intro rest
  induction rest with
  | nil => intro _ _; rfl
  | cons kv0 r ih =>
    intro hkeyed hne
    have h1 : dedupKey kv0.2 ≠ k := by
      rw [← hkeyed kv0 (List.mem_cons_self _ _)]
      exact hne kv0 (List.mem_cons_self _ _)
    simp only [List.map_cons, List.filter_cons, h1]
    simp only [decide_eq_true_eq, h1, if_false]
    exact ih (fun kv hkv => hkeyed kv (List.mem_cons_of_mem _ hkv))
      (fun kv hkv => hne kv (List.mem_cons_of_mem _ hkv))

theorem overwrite_id_of_no_key {k : String} {p : EventPost} :
    ∀ {rest : List (String × EventPost)}, (∀ kv ∈ rest, kv.1 ≠ k) →
      (rest.map fun kv => if kv.1 = k then (kv.1, p) else kv) = rest := by
  intro rest
  induction rest with
  | nil => intro _; rfl
  | cons kv0 r ih =>
    intro hne
    have h1 : kv0.1 ≠ k := hne kv0 (List.mem_cons_self _ _)
    simp only [List.map_cons, h1, if_false]
    rw [ih (fun kv hkv => hne kv (List.mem_cons_of_mem _ hkv))]

theorem overwrite_filter_self : ∀ {acc : List (String × EventPost)} {p : EventPost},
    (∀ kv ∈ acc, kv.1 = dedupKey kv.2) → (acc.map Prod.fst).Nodup →
    (acc.any fun kv => kv.1 = dedupKey p) = true →
    (((acc.map fun kv => if kv.1 = dedupKey p then (kv.1, p) else kv).map
        fun kv => kv.2).filter fun q => dedupKey q = dedupKey p) = [p] := by
  intro acc
  induction acc with
  | nil => intro p _ _ h; simp at h
  | cons kv0 rest ih =>
    intro p hkeyed hnodup hany
    by_cases hk : kv0.1 = dedupKey p
    · simp only [List.map_cons, hk, if_pos, List.filter_cons]
      have hrest_ne : ∀ kv ∈ rest, kv.1 ≠ dedupKey p := by
        intro kv hkv heq
        simp only [List.map_cons, List.nodup_cons] at hnodup
        exact hnodup.1 (hk ▸ heq ▸ List.mem_map_of_mem Prod.fst hkv)
      rw [overwrite_id_of_no_key hrest_ne,
        snd_filter_nil (fun kv hkv => hkeyed kv (List.mem_cons_of_mem _ hkv)) hrest_ne]
      simp
    · have h0 : dedupKey kv0.2 ≠ dedupKey p := by
        rw [← hkeyed kv0 (List.mem_cons_self _ _)]
        exact hk
      simp only [List.map_cons, hk, if_false, List.filter_cons]
      simp only [decide_eq_true_eq, h0, if_false]
      refine ih (fun kv hkv => hkeyed kv (List.mem_cons_of_mem _ hkv)) ?_ ?_
      · simp only [List.map_cons, List.nodup_cons] at hnodup
        exact hnodup.2
      · simp only [List.any_cons, Bool.or_eq_true, decide_eq_true_eq] at hany
        rcases hany with hany | hany
        · exact absurd hany hk
        · exact hany

theorem overwrite_filter_other {k : String} {p : EventPost} :
    ∀ {acc : List (String × EventPost)},
    (∀ kv ∈ acc, kv.1 = dedupKey kv.2) → k ≠ dedupKey p →
    (((acc.map fun kv => if kv.1 = dedupKey p then (kv.1, p) else kv).map
        fun kv => kv.2).filter fun q => dedupKey q = k)
      = ((acc.map fun kv => kv.2).filter fun q => dedupKey q = k) := by
  intro acc
  induction acc with
  | nil => intro _ _; rfl
  | cons kv0 rest ih =>
    intro hkeyed hne
    by_cases hk : kv0.1 = dedupKey p
    · have h1 : dedupKey p ≠ k := fun h => hne h.symm
      have h2 : dedupKey kv0.2 ≠ k := by
        rw [← hkeyed kv0 (List.mem_cons_self _ _), hk]
        exact h1
      simp only [List.map_cons, hk, if_pos, List.filter_cons]
      simp only [decide_eq_true_eq, h1, h2, if_false]
      exact ih (fun kv hkv => hkeyed kv (List.mem_cons_of_mem _ hkv)) hne
    · simp only [List.map_cons, hk, if_false, List.filter_cons]
      rw [ih (fun kv hkv => hkeyed kv (List.mem_cons_of_mem _ hkv)) hne]

theorem dedupInsert_keyed {acc : List (String × EventPost)} {p : EventPost}
    (h : ∀ kv ∈ acc, kv.1 = dedupKey kv.2) :
    ∀ kv ∈ dedupInsert acc p, kv.1 = dedupKey kv.2 := by
  intro kv hkv
  rw [dedupInsert] at hkv
  by_cases hany : (acc.any fun kv => kv.1 = dedupKey p) = true
  · rw [if_pos hany] at hkv
    rcases List.mem_map.mp hkv with ⟨kv0, hkv0, heq⟩
    by_cases hk : kv0.1 = dedupKey p
    · rw [← heq]
      simp [hk]
    · rw [← heq]
      simp only [hk, if_false]
      exact h kv0 hkv0
  · rw [if_neg hany] at hkv
    rcases List.mem_append.mp hkv with hkv | hkv
    · exact h kv hkv
    · simp only [List.mem_singleton] at hkv
      subst hkv
      rfl

theorem overwrite_fst (acc : List (String × EventPost)) (k : String) (p : EventPost) :
    ((acc.map fun kv => if kv.1 = k then (kv.1, p) else kv).map Prod.fst)
      = acc.map Prod.fst := by
  rw [List.map_map]
  refine List.map_congr_left ?_
  intro kv _
  by_cases hk : kv.1 = k <;> simp [hk]

theorem dedupInsert_nodup {acc : List (String × EventPost)} {p : EventPost}
    (h : (acc.map Prod.fst).Nodup) :
    ((dedupInsert acc p).map Prod.fst).Nodup := by
  rw [dedupInsert]
  by_cases hany : (acc.any fun kv => kv.1 = dedupKey p) = true
  · rw [if_pos hany, overwrite_fst]
    exact h
  · rw [if_neg hany, List.map_append]
    have hk : dedupKey p ∉ acc.map Prod.fst := by
      intro hm
      rcases List.mem_map.mp hm with ⟨kv, hkv, heq⟩
      refine hany ?_
      rw [List.any_eq_true]
      exact ⟨kv, hkv, by simpa using heq⟩
    simp only [List.map_cons, List.map_nil]
    rw [List.nodup_append]
    refine ⟨h, List.nodup_singleton _, ?_⟩
    intro a ha hb
    simp only [List.mem_singleton] at hb
    subst hb
    exact hk ha

theorem foldl_dedup_filter {k : String} : ∀ {l : List EventPost}
    {acc : List (String × EventPost)},
    (∀ kv ∈ acc, kv.1 = dedupKey kv.2) → (acc.map Prod.fst).Nodup →
    (((l.foldl dedupInsert acc).map fun kv => kv.2).filter fun q => dedupKey q = k)
      = match (l.filter fun q => dedupKey q = k).getLast? with
        | some q => [q]
        | none => ((acc.map fun kv => kv.2).filter fun q => dedupKey q = k) := by
  intro l
  induction l with
  | nil => intro acc h1 h2; simp
  | cons p rest ih =>
    intro acc h1 h2
    rw [List.foldl_cons, ih (dedupInsert_keyed h1) (dedupInsert_nodup h2),
      List.filter_cons]
    rcases hLast : (rest.filter fun q => dedupKey q = k).getLast? with _ | q
    · have hnil : (rest.filter fun q => dedupKey q = k) = [] := by
        simpa using hLast
      by_cases hk : dedupKey p = k
      · simp only [decide_eq_true_eq, hk, if_pos, hnil]
        rw [dedupInsert]
        by_cases hany : (acc.any fun kv => kv.1 = dedupKey p) = true
        · rw [if_pos hany]
          subst hk
          rw [overwrite_filter_self h1 h2 hany]
          simp
        · rw [if_neg hany]
          subst hk
          have hne : ∀ kv ∈ acc, kv.1 ≠ dedupKey p := by
            intro kv hkv heq
            refine hany ?_
            rw [List.any_eq_true]
            exact ⟨kv, hkv, by simpa using heq⟩
          rw [List.map_append, List.filter_append, snd_filter_nil h1 hne]
          simp
      · simp only [decide_eq_true_eq, hk, if_false, hnil]
        rw [dedupInsert]
        by_cases hany : (acc.any fun kv => kv.1 = dedupKey p) = true
        · rw [if_pos hany]
          rw [overwrite_filter_other h1 (fun h => hk h.symm)]
          simp
        · rw [if_neg hany]
          rw [List.map_append, List.filter_append]
          simp [hk]
    · rcases hcons : (rest.filter fun q => dedupKey q = k) with _ | ⟨q0, qs⟩
      · rw [hcons] at hLast
        cases hLast
      · by_cases hk : dedupKey p = k
        · simp only [decide_eq_true_eq, hk, if_pos, hcons]
          rw [List.getLast?_cons_cons, ← hcons, hLast]
        · simp only [decide_eq_true_eq, hk, if_false, hcons]
          rw [← hcons, hLast]

theorem dedup_filter (l : List EventPost) (k : String) :
    ((dedup l).filter fun q => dedupKey q = k)
      = ((l.filter fun q => dedupKey q = k).getLast?).toList := by
  rw [dedup, foldl_dedup_filter (by simp) (by simp)]
  rcases h : (l.filter fun q => dedupKey q = k).getLast? with _ | q
  · rfl
  · rfl

theorem mem_dedupInsert_snd {acc : List (String × EventPost)} {p x : EventPost}
    (h : x ∈ (dedupInsert acc p).map fun kv => kv.2) :
    (x ∈ acc.map fun kv => kv.2) ∨ x = p := by
  rw [dedupInsert] at h
  by_cases hany : (acc.any fun kv => kv.1 = dedupKey p) = true
  · rw [if_pos hany, List.map_map] at h
    rcases List.mem_map.mp h with ⟨kv0, hkv0, heq⟩
    by_cases hk : kv0.1 = dedupKey p
    · right
      rw [← heq]
      simp [hk]
    · left
      rw [← heq]
      simp only [Function.comp_apply, hk, if_false]
      exact List.mem_map_of_mem _ hkv0
  · rw [if_neg hany] at h
    rw [List.map_append] at h
    rcases List.mem_append.mp h with h | h
    · exact Or.inl h
    · right
      simpa using h

theorem mem_foldl_dedup : ∀ {l : List EventPost} {acc : List (String × EventPost)}
    {x : EventPost}, (x ∈ (l.foldl dedupInsert acc).map fun kv => kv.2) →
    (x ∈ acc.map fun kv => kv.2) ∨ x ∈ l := by
  intro l
  induction l with
  | nil => intro acc x h; exact Or.inl h
  | cons p rest ih =>
    intro acc x h
    rw [List.foldl_cons] at h
    rcases ih h with h2 | h2
    · rcases mem_dedupInsert_snd h2 with h3 | h3
      · exact Or.inl h3
      · exact Or.inr (h3 ▸ List.mem_cons_self _ _)
    · exact Or.inr (List.mem_cons_of_mem _ h2)

theorem mem_dedup {l : List EventPost} {p : EventPost} (h : p ∈ dedup l) : p ∈ l := by
  rw [dedup] at h
  rcases mem_foldl_dedup h with h2 | h2
  · simp at h2
  · exact h2

theorem dedupInsert_length (acc : List (String × EventPost)) (p : EventPost) :
    acc.length ≤ (dedupInsert acc p).length := by
  rw [dedupInsert]
  by_cases hany : (acc.any fun kv => kv.1 = dedupKey p) = true
  · rw [if_pos hany]
    simp
  · rw [if_neg hany]
    simp

theorem foldl_dedup_length : ∀ (l : List EventPost) (acc : List (String × EventPost)),
    acc.length ≤ (l.foldl dedupInsert acc).length := by
  intro l
  induction l with
  | nil => intro acc; exact Nat.le_refl _
  | cons p rest ih =>
    intro acc
    rw [List.foldl_cons]
    exact Nat.le_trans (dedupInsert_length acc p) (ih _)

theorem dedup_ne_nil {l : List EventPost} (h : l ≠ []) : dedup l ≠ [] := by
  rcases l with _ | ⟨p, rest⟩
  · exact absurd rfl h
  · rw [dedup, List.foldl_cons]
    intro hnil
    have hlen := foldl_dedup_length rest (dedupInsert [] p)
    have h1 : (dedupInsert [] p).length = 1 := by rfl
    rw [h1] at hlen
    have h2 : (rest.foldl dedupInsert (dedupInsert [] p)).length = 0 := by
      have h3 := congrArg List.length hnil
      simpa using h3
    omega

theorem mkPost_source (parse : String → Option PyDateTime) (s : String)
    (item : RssItem) : (mkPost parse s item).source = s := rfl

theorem read_feed_source {parse : String → Option PyDateTime} {s : String}
    {items : List RssItem} {p : EventPost} (h : p ∈ read_feed parse s items) :
    p.source = s := by
  rw [read_feed] at h
  rcases List.mem_map.mp h with ⟨item, _, heq⟩
  rw [← heq]
  rfl

theorem gather_errors (parse : String → Option PyDateTime)
    (fetch : String → Except String (List RssItem)) :
    ∀ (fs : List (String × String)),
    (gather parse fetch fs).2 = fs.filterMap fun su =>
      match fetch su.2 with
      | Except.ok _ => none
      | Except.error e => some (su.1 ++ ": " ++ e) := by
  intro fs
  induction fs with
  | nil => rfl
  | cons su rest ih =>
    rcases su with ⟨s, u⟩
    rw [gather, List.filterMap_cons]
    cases hf : fetch u with
    | ok items => simp only [hf, ih]
    | error e => simp only [hf, ih]

theorem gather_mem_source {parse : String → Option PyDateTime}
    {fetch : String → Except String (List RssItem)} :
    ∀ {fs : List (String × String)} {p : EventPost},
    p ∈ (gather parse fetch fs).1 → ∃ su ∈ fs, p.source = su.1 := by
  intro fs
  induction fs with
  | nil => intro p h; simp [gather] at h
  | cons su rest ih =>
    rcases su with ⟨s, u⟩
    intro p h
    rw [gather] at h
    cases hf : fetch u with
    | ok items =>
      rw [hf] at h
      simp only at h
      rcases List.mem_append.mp h with h2 | h2
      · exact ⟨(s, u), List.mem_cons_self _ _, read_feed_source h2⟩
      · rcases ih h2 with ⟨su2, hsu2, hsrc⟩
        exact ⟨su2, List.mem_cons_of_mem _ hsu2, hsrc⟩
    | error e =>
      rw [hf] at h
      simp only at h
      rcases ih h with ⟨su2, hsu2, hsrc⟩
      exact ⟨su2, List.mem_cons_of_mem _ hsu2, hsrc⟩

theorem mem_events_mem_collected {parse : String → Option PyDateTime}
    {now today : String} {elapsed : Nat}
    {fetch : String → Except String (List RssItem)} {p : EventPost}
    (h : p ∈ (events parse now today elapsed fetch).events) :
    p ∈ collected_posts parse today fetch :=
  mem_dedup ((sortDesc_perm _).subset h)

/-- One pass of cleaning yields a fixed point of all three stages. -/
theorem cleanChars_idem (l : List Char) : cleanChars (cleanChars l) = cleanChars l := by
  have hnm : noMatch (cleanChars l) = true :=
    noMatch_stripWS (noMatch_collapseWS noMatch_detag)
  have hwn : wsNorm (cleanChars l) = true :=
    wsNorm_stripWS wsNorm_collapseWS
  have hna : noAdjWS (cleanChars l) = true :=
    noAdjWS_stripWS noAdjWS_collapseWS
  show stripWS (collapseWS (detag (cleanChars l))) = cleanChars l
  rw [detag_of_noMatch hnm, collapseWS_of_norm hwn hna]
  show stripWS (stripWS (collapseWS (detag l))) = cleanChars l
  rw [stripWS_stripWS]
  rfl


/-! ## Concrete instantiations used by witnesses and counterexamples -/

/-- A date parser that rejects everything (any input makes
`parsedate_to_datetime` raise). -/
def parse0 : String → Option PyDateTime := fun _ => none

/-- A fetch outcome where every source fails. -/
def fetchFail : String → Except String (List RssItem) := fun _ =>
  Except.error "offline"

/-- A fetch outcome where the first source returns one item whose title text
is whitespace-only, and the other sources fail. -/
def fetchWS : String → Except String (List RssItem) := fun u =>
  if u = "https://pokemongolive.com/news/rss" then
    Except.ok [{ title := some "   ", link := some "https://x.example/e",
                 description := none, pubDate := none }]
  else Except.error "offline"

/-- A parser recognizing the two pubDate payloads used by the sorting
example. -/
def parseTwo : String → Option PyDateTime := fun v =>
  if v = "A" then some ⟨2024, 1, 2, 10, 0, 0, some 0⟩
  else if v = "B" then some ⟨2024, 1, 3, 9, 0, 0, some 0⟩
  else none

/-- A fetch outcome giving two items with distinct titles and urls whose
normalized dates are `2024-01-02 10:00 UTC` and `2024-01-03 09:00 UTC`. -/
def fetchTwo : String → Except String (List RssItem) := fun u =>
  if u = "https://pokemongolive.com/news/rss" then
    Except.ok [⟨some "E1", some "https://x.example/1", none, some "A"⟩,
               ⟨some "E2", some "https://x.example/2", none, some "B"⟩]
  else Except.error "offline"

/-- A parser recognizing one RFC 2822 date string. -/
def parseRfc : String → Option PyDateTime := fun v =>
  if v = "Wed, 02 Oct 2024 10:00:00 +0000" then
    some ⟨2024, 10, 2, 10, 0, 0, some 0⟩
  else none

/-! ## The claims -/

theorem categoryLoop_eq_find (t : String) : ∀ (ks : List (String × String)),
    categoryLoop t ks =
      ((ks.find? fun kv => pyIn (pyLower kv.1) (pyLower t)).map
        fun kv => kv.2).getD "News" := by
  intro ks
  induction ks with
  | nil => rfl
  | cons kv rest ih =>
    rcases kv with ⟨k, c⟩
    rw [categoryLoop]
    by_cases h : pyIn (pyLower k) (pyLower t) = true
    · simp [List.find?_cons, h]
    · have h2 : pyIn (pyLower k) (pyLower t) = false := by simpa using h
      simp [List.find?_cons, h2, ih]

/-- C10: `_clean_html` is idempotent: for every string `s`,
`_clean_html (_clean_html s) = _clean_html s` — tag stripping via the regex
`<[^>]+>` followed by whitespace collapsing and trimming produces a fixed
point after one application. -/
theorem clean_html_idem (s : String) :
    clean_html (clean_html s) = clean_html s :=
  congrArg String.mk (cleanChars_idem s.data)

/-- C7: the classifier is a pure function of the title doing
case-insensitive substring matching over the fixed ordered keyword list,
returning the category of the first keyword (in table order) contained in
the title and `"News"` when none matches; on
`"Team GO Rocket Raid Hour announced"` it returns `"Raid"`. -/
theorem category_for_title_spec :
    (∀ t, category_for_title t =
      ((EVENT_KEYWORDS.find? fun kv => pyIn (pyLower kv.1) (pyLower t)).map
        fun kv => kv.2).getD "News")
    ∧ category_for_title "Team GO Rocket Raid Hour announced" = "Raid" := by
  constructor
  · intro t
    exact categoryLoop_eq_find t EVENT_KEYWORDS
  · decide

/-- C9: for every well-formed feed, `_read_feed` produces at most 25
`EventPost`s, built from the first 25 `item` elements in document order;
every later item is dropped silently. -/
theorem read_feed_cap (parse : String → Option PyDateTime) (s : String)
    (items : List RssItem) :
    (read_feed parse s items).length ≤ 25
    ∧ ∀ i : Nat, (read_feed parse s items)[i]? =
        if i < 25 then (items[i]?).map (mkPost parse s) else none := by
  constructor
  · rw [read_feed, List.length_map, List.length_take]
    exact Nat.min_le_left _ _
  · intro i
    rw [read_feed, List.getElem?_map, List.getElem?_take]
    by_cases h : i < 25
    · simp [h]
    · simp [h]

/-- C8: the date normalizer returns `"Unknown"` on the empty string without
parsing; on a parseable input it defaults a missing timezone to UTC,
converts to UTC and formats as `YYYY-MM-DD HH:MM UTC`; on an unparseable
non-empty input it returns the raw string unchanged (and, being a total
function of the parse outcome, never raises). -/
theorem normalize_date_spec (parse : String → Option PyDateTime) :
    normalize_date parse "" = "Unknown"
    ∧ (∀ v, v ≠ "" → parse v = none → normalize_date parse v = v)
    ∧ (∀ v dt, v ≠ "" → parse v = some dt →
        normalize_date parse v = fmtUTC (toUTC dt))
    ∧ (∀ dt, dt.tz = none → toUTC dt = { dt with tz := some 0 })
    ∧ (∀ dt, fmtUTC dt = pad4 dt.year ++ "-" ++ pad2 dt.month ++ "-" ++
        pad2 dt.day ++ " " ++ pad2 dt.hour ++ ":" ++ pad2 dt.minute ++
        " UTC") := by
  refine ⟨rfl, ?_, ?_, ?_, fun dt => rfl⟩
  · intro v hv hp
    rw [normalize_date, if_neg hv, hp]
  · intro v dt hv hp
    rw [normalize_date, if_neg hv, hp]
  · intro dt h
    simp [toUTC, h]

/-- Witness for C8 at concrete inputs: the empty string, `"not-a-date"`,
and a parseable RFC 2822 date. -/
theorem normalize_date_spec_witness :
    normalize_date parseRfc "" = "Unknown"
    ∧ normalize_date parseRfc "not-a-date" = "not-a-date"
    ∧ normalize_date parseRfc "Wed, 02 Oct 2024 10:00:00 +0000"
        = "2024-10-02 10:00 UTC" := by
  refine ⟨(normalize_date_spec parseRfc).1, ?_, ?_⟩
  · exact (normalize_date_spec parseRfc).2.1 "not-a-date" (by decide) (by decide)
  · have h := (normalize_date_spec parseRfc).2.2.1
      "Wed, 02 Oct 2024 10:00:00 +0000" ⟨2024, 10, 2, 10, 0, 0, some 0⟩
      (by decide) (by decide)
    rw [h]
    decide


/-- C1: `events()` never raises — modelled as a total function over every
per-source fetch/parse outcome — and always returns a well-formed envelope:
`generated_at`, `refresh_note`, `elapsed_ms`, `errors` and `events` are all
present (the `events` list is even never empty, thanks to the fallback), and
each source failure is caught at the per-source boundary and becomes
exactly the string `"{source}: {error}"` in `errors`, in registry order. -/
theorem events_total_envelope (parse : String → Option PyDateTime)
    (now today : String) (elapsed : Nat)
    (fetch : String → Except String (List RssItem)) :
    (events parse now today elapsed fetch).errors
        = FEEDS.filterMap (fun su =>
            match fetch su.2 with
            | Except.ok _ => none
            | Except.error e => some (su.1 ++ ": " ++ e))
      ∧ (events parse now today elapsed fetch).generated_at = now
      ∧ (events parse now today elapsed fetch).refresh_note
          = "Auto-refreshes every day and can be manually refreshed anytime."
      ∧ (events parse now today elapsed fetch).elapsed_ms = elapsed
      ∧ (events parse now today elapsed fetch).events ≠ [] := by
  refine ⟨gather_errors parse fetch FEEDS, rfl, rfl, rfl, ?_⟩
  have hcol : collected_posts parse today fetch ≠ [] := by
    rw [collected_posts]
    by_cases hg : (gather parse fetch FEEDS).1 = []
    · rw [if_pos hg]
      simp [fallback_posts]
    · rw [if_neg hg]
      exact hg
  have hd := dedup_ne_nil hcol
  intro hnil
  have hlen := (sortDesc_perm (dedup (collected_posts parse today fetch))).length_eq
  rw [show (events parse now today elapsed fetch).events
      = sortDesc (dedup (collected_posts parse today fetch)) from rfl] at hnil
  rw [hnil] at hlen
  exact hd (List.length_eq_zero.mp hlen.symm)

/-- C2: when the combined post list is empty (every source failed or
returned zero items), `events().events` is exactly the single fallback post,
which has source `"System"`, category `"Status"` and `published_at` equal to
the current UTC date followed by `" 00:00 UTC"`; when the combined list is
non-empty, no fallback post is added — every output post is one of the
collected posts. -/
theorem events_fallback (parse : String → Option PyDateTime)
    (now today : String) (elapsed : Nat)
    (fetch : String → Except String (List RssItem)) :
    ((gather parse fetch FEEDS).1 = [] →
        (events parse now today elapsed fetch).events = [fallbackPost today]
        ∧ (fallbackPost today).source = "System"
        ∧ (fallbackPost today).category = "Status"
        ∧ (fallbackPost today).published_at = today ++ " 00:00 UTC")
    ∧ ((gather parse fetch FEEDS).1 ≠ [] →
        ∀ p ∈ (events parse now today elapsed fetch).events,
          p ∈ (gather parse fetch FEEDS).1) := by
  constructor
  · intro hg
    refine ⟨?_, rfl, rfl, rfl⟩
    show sortDesc (dedup (collected_posts parse today fetch)) = [fallbackPost today]
    rw [collected_posts, if_pos hg]
    rfl
  · intro hg p hp
    have h2 := mem_events_mem_collected hp
    rw [collected_posts, if_neg hg] at h2
    exact h2

/-- Witness for C2: with every source failing, the envelope holds exactly
the synthetic status post. -/
theorem events_fallback_witness :
    (events parse0 "2099-01-01 12:00 UTC" "2099-01-01" 7 fetchFail).events
        = [fallbackPost "2099-01-01"]
    ∧ (fallbackPost "2099-01-01").source = "System"
    ∧ (fallbackPost "2099-01-01").category = "Status"
    ∧ (fallbackPost "2099-01-01").published_at = "2099-01-01 00:00 UTC" := by
  have h := (events_fallback parse0 "2099-01-01 12:00 UTC" "2099-01-01" 7
    fetchFail).1 (by decide)
  exact ⟨h.1, h.2.1, h.2.2.1, h.2.2.2.trans (by decide)⟩

/-- C4: deduplication keys a post by `title ++ "|" ++ url` (exact,
case-sensitive): for any key, the output of `events()` contains at most one
post with that key, namely the last post with that key in processing order
(sources in registry order, items in document order) — and exactly one
whenever some collected post has that key. -/
theorem events_dedup_last_wins (parse : String → Option PyDateTime)
    (now today : String) (elapsed : Nat)
    (fetch : String → Except String (List RssItem)) (k : String) :
    (∀ p : EventPost, dedupKey p = p.title ++ "|" ++ p.url)
    ∧ ((events parse now today elapsed fetch).events.filter
          fun p => dedupKey p = k)
        = (((collected_posts parse today fetch).filter
            fun p => dedupKey p = k).getLast?).toList := by
  refine ⟨fun p => rfl, ?_⟩
  have hperm := (sortDesc_perm (dedup (collected_posts parse today fetch))).filter
    fun p => dedupKey p = k
  rw [dedup_filter] at hperm
  rcases h : (((collected_posts parse today fetch).filter
      fun p => dedupKey p = k).getLast?) with _ | q
  · rw [h] at hperm
    simp only [Option.toList]
    exact hperm.eq_nil
  · rw [h] at hperm
    simp only [Option.toList]
    exact List.perm_singleton.mp hperm

/-- C5: the `events` list is sorted by `published_at` descending under plain
string (code-point) comparison, not parsed-date comparison; concretely, the
post dated `2024-01-03 09:00 UTC` precedes the one dated
`2024-01-02 10:00 UTC`, and `"Unknown"` compares lexically above any
digit-initial date string, so it would sort in front. -/
theorem events_sorted_desc (parse : String → Option PyDateTime)
    (now today : String) (elapsed : Nat)
    (fetch : String → Except String (List RssItem)) :
    List.Chain' descPair (events parse now today elapsed fetch).events
    ∧ ((events parseTwo "now" "2024-01-05" 0 fetchTwo).events.map
        fun p => p.published_at)
        = ["2024-01-03 09:00 UTC", "2024-01-02 10:00 UTC"]
    ∧ lexLt "2024-01-03 09:00 UTC".data "Unknown".data = true := by
  refine ⟨chain_sortDesc _, by decide, by decide⟩


/-- C3 counterexample: a feed item whose title text is non-empty but
whitespace-only (`"   "`) is truthy, so the placeholder is not substituted,
and stripping then leaves an empty title in the output of `events()` —
falsifying "the title field … [is a] non-empty string" for every output
post. -/
theorem title_nonempty_counterexample :
    ((events parse0 "now" "today" 0 fetchWS).events.map fun p => p.title)
      = [""] := by
  decide

/-- C3 (amended): `source` is never empty for any post in the output of
`events()`; for a feed item whose title sub-element is missing (or present
but empty) the parser substitutes the placeholder `"Untitled Event"`; and
the built title is empty exactly when the feed supplied a non-empty but
whitespace-only title text — in every other case the title is non-empty. -/
theorem title_source_invariants (parse : String → Option PyDateTime)
    (now today : String) (elapsed : Nat)
    (fetch : String → Except String (List RssItem)) :
    (∀ p ∈ (events parse now today elapsed fetch).events, p.source ≠ "")
    ∧ (∀ (s : String) (item : RssItem),
        item.title = none ∨ item.title = some "" →
        (mkPost parse s item).title = "Untitled Event")
    ∧ (∀ (s : String) (item : RssItem),
        ((mkPost parse s item).title = "" ↔
          ∃ t, item.title = some t ∧ t ≠ "" ∧ pyStrip t = "")) := by
  refine ⟨?_, ?_, ?_⟩
  · intro p hp
    have h2 := mem_events_mem_collected hp
    rw [collected_posts] at h2
    by_cases hg : (gather parse fetch FEEDS).1 = []
    · rw [if_pos hg] at h2
      simp only [fallback_posts, List.mem_singleton] at h2
      subst h2
      show ("System" : String) ≠ ""
      decide
    · rw [if_neg hg] at h2
      rcases gather_mem_source h2 with ⟨su, hsu, hsrc⟩
      rw [hsrc]
      have hmem : su.1 ∈ FEEDS.map Prod.fst := List.mem_map_of_mem _ hsu
      simp only [FEEDS, List.map_cons, List.map_nil, List.mem_cons,
        List.not_mem_nil, or_false] at hmem
      rcases hmem with h | h | h <;> rw [h] <;> decide
  · intro s item h
    show pyStrip (pyOr item.title "Untitled Event") = "Untitled Event"
    rcases h with h | h <;> rw [h] <;> decide
  · intro s item
    show pyStrip (pyOr item.title "Untitled Event") = "" ↔ _
    cases htitle : item.title with
    | none =>
      constructor
      · intro h
        exact absurd h (by decide)
      · rintro ⟨t, ht, _, _⟩
        cases ht
    | some t =>
      by_cases ht : t = ""
      · subst ht
        constructor
        · intro h
          exact absurd h (by decide)
        · rintro ⟨t2, ht2, hne, _⟩
          cases ht2
          exact absurd rfl hne
      · have hor : pyOr (some t) "Untitled Event" = t := by
          simp [pyOr, pyOrS, ht]
        rw [hor]
        constructor
        · intro h
          exact ⟨t, rfl, ht, h⟩
        · rintro ⟨t2, ht2, hne, hstrip⟩
          cases ht2
          exact hstrip

/-- Witness for C3 (amended): the always-failing run keeps a non-empty
source, and a missing title becomes `"Untitled Event"`. -/
theorem title_source_invariants_witness :
    (fallbackPost "today").source ≠ ""
    ∧ (mkPost parse0 "Pokemon GO Live" ⟨none, none, none, none⟩).title
        = "Untitled Event" := by
  constructor
  · exact (title_source_invariants parse0 "now" "today" 0 fetchFail).1
      (fallbackPost "today") (by decide)
  · exact (title_source_invariants parse0 "now" "today" 0 fetchFail).2.1
      "Pokemon GO Live" ⟨none, none, none, none⟩ (Or.inl rfl)

set_option maxHeartbeats 1600000 in
/-- C6 counterexample: for the description `"<p></p>"` the cleaned string is
empty — of length 0, hence at most 230 — yet the stored summary is the
fixed fallback text, not the cleaned string unchanged. -/
theorem summary_truncation_counterexample :
    clean_html "<p></p>" = ""
    ∧ (mkPost parse0 "Pokemon GO Live"
        ⟨some "T", some "u", some "<p></p>", none⟩).summary
      = "Open to see full event details." := by
  exact ⟨by decide, by decide⟩

set_option maxHeartbeats 800000 in
/-- The stored summary field of a built post, in terms of the cleaned
description. -/
theorem mkPost_summary (parse : String → Option PyDateTime) (s : String)
    (item : RssItem) :
    (mkPost parse s item).summary
      = pyOrS (truncateSummary (clean_html (pyOr item.description "")))
          "Open to see full event details." := rfl

/-- C6 (amended): writing `c` for the cleaned description, if `c` is longer
than 230 characters the stored summary is the first 230 characters of `c`
followed by the one-character ellipsis marker — exactly 231 characters and
ending in `…`; if `c` is non-empty with length at most 230 the stored
summary is `c` unchanged; and if `c` is empty the stored summary is the
fixed fallback `"Open to see full event details."`. -/
theorem summary_truncation (parse : String → Option PyDateTime)
    (s : String) (item : RssItem) :
    ((clean_html (pyOr item.description "")).length > 230 →
        (mkPost parse s item).summary.data
            = (clean_html (pyOr item.description "")).data.take 230 ++ ['…']
        ∧ (mkPost parse s item).summary.length = 231
        ∧ (mkPost parse s item).summary.data.getLast? = some '…')
    ∧ ((clean_html (pyOr item.description "")).length ≤ 230 →
        clean_html (pyOr item.description "") ≠ "" →
        (mkPost parse s item).summary = clean_html (pyOr item.description ""))
    ∧ (clean_html (pyOr item.description "") = "" →
        (mkPost parse s item).summary = "Open to see full event details.") := by
  have hsum := mkPost_summary parse s item
  refine ⟨?_, ?_, ?_⟩
  · intro h
    have hne : truncateSummary (clean_html (pyOr item.description "")) ≠ "" := by
      rw [truncateSummary, if_pos h]
      intro hcontra
      have h3 := congrArg String.data hcontra
      simp at h3
    have hstore : (mkPost parse s item).summary
        = truncateSummary (clean_html (pyOr item.description "")) := by
      rw [hsum, pyOrS, if_neg hne]
    have hlen : 230 < (clean_html (pyOr item.description "")).data.length := h
    refine ⟨?_, ?_, ?_⟩
    · rw [hstore, truncateSummary, if_pos h]
    · rw [hstore, truncateSummary, if_pos h]
      show ((clean_html (pyOr item.description "")).data.take 230
          ++ ['…']).length = 231
      rw [List.length_append, List.length_take,
        Nat.min_eq_left (Nat.le_of_lt hlen)]
      rfl
    · rw [hstore, truncateSummary, if_pos h]
      show ((clean_html (pyOr item.description "")).data.take 230
          ++ ['…']).getLast? = some '…'
      rw [List.getLast?_concat]
  · intro h1 h2
    rw [hsum, truncateSummary, if_neg (Nat.not_lt.mpr h1), pyOrS, if_neg h2]
  · intro h
    rw [hsum, h]
    decide

/-- A 240-character cleaned description used to exercise truncation. -/
def longDesc : String := ⟨List.replicate 240 'a'⟩

set_option maxHeartbeats 3200000 in
/-- Witness for C6 (amended): a 240-character description is truncated to
231 characters ending in the ellipsis; a short description is stored
unchanged. -/
theorem summary_truncation_witness :
    (mkPost parse0 "S" ⟨some "T", some "u", some longDesc, none⟩).summary.length
        = 231
    ∧ (mkPost parse0 "S"
        ⟨some "T", some "u", some longDesc, none⟩).summary.data.getLast?
        = some '…'
    ∧ (mkPost parse0 "S" ⟨some "T", some "u", some "hi", none⟩).summary
        = "hi" := by
  have h1 := (summary_truncation parse0 "S"
    ⟨some "T", some "u", some longDesc, none⟩).1 (by decide)
  refine ⟨h1.2.1, h1.2.2, ?_⟩
  have h2 := (summary_truncation parse0 "S"
    ⟨some "T", some "u", some "hi", none⟩).2.1 (by decide) (by decide)
  rw [h2]
  decide

end Happysearch
